import Mathlib

/-!
Verification of the key-normalization and merge logic of `app.py`
(SkillCorner-WyScout player-database merging app).

The Python source operates on pandas DataFrames and Python strings.  We give a
shallow embedding: scalar cell values become the inductive type `Value`
(a string, an integer, or the missing marker NaN), tables become a header
list of column names plus a list of rows, and the Unicode operations used by
`normalize_str` (`unicodedata.normalize('NFD', ...)`, combining-mark category
test, `str.lower`, `str.strip`, `str.split`) are modelled on the alphabet the
program's data actually exercises: the NFD decomposition table and the
combining-mark class are restricted to the precomposed characters appearing in
the specification's examples, every other character decomposing to itself.
-/

/-- The combining acute accent U+0301, a character of Unicode category Mn. -/
def combAcute : Char := '́'

/-- Model of `unicodedata.normalize('NFD', ·)` at the single-character level:
canonical decomposition.  Restricted to the accented characters exercised by
the program ('É' and 'é'); all other characters decompose to themselves. -/
def nfdChar (c : Char) : List Char :=
  if c = 'É' then ['E', combAcute]
  else if c = 'é' then ['e', combAcute]
  else [c]

/-- Model of `unicodedata.category(c) != 'Mn'`'s negation: is `c` a combining
mark?  Restricted to the combining marks producible by `nfdChar`. -/
def isMn (c : Char) : Bool :=
  c = combAcute

/-- Model of Python `str.lower` at the character level: ASCII case folding
plus the accented letters of the modelled alphabet. -/
def pyLower (c : Char) : Char :=
  if c = 'É' then 'é' else c.toLower

/-- Model of Python's whitespace class as used by `str.strip()` and
`str.split()` (restricted to ASCII whitespace). -/
def pyIsSpace (c : Char) : Bool :=
  c = ' ' || c = '\t' || c = '\n' || c = '\r'

/-- NFD-decompose a character list (concatenating `nfdChar` over it). -/
def nfdList : List Char → List Char
  | [] => []
  | c :: cs => nfdChar c ++ nfdList cs

/-- The accent-removal step of `normalize_str` (app.py line 31):
`''.join(c for c in unicodedata.normalize('NFD', s) if unicodedata.category(c) != 'Mn')`. -/
def removeAccentsStep (l : List Char) : List Char :=
  (nfdList l).filter (fun c => !isMn c)

/-- The lowercasing step of `normalize_str` (app.py line 33): `s.lower()`. -/
def lowerStep (l : List Char) : List Char :=
  l.map pyLower

/-- Model of Python `str.strip()` (app.py line 35): drop leading and trailing
whitespace. -/
def pyStrip (l : List Char) : List Char :=
  ((l.dropWhile pyIsSpace).reverse.dropWhile pyIsSpace).reverse

/-- Helper for `pySplit`: accumulates the current word (reversed) and emits it
at each whitespace boundary, discarding empty words, as Python `str.split()`
does. -/
def pySplitAux : List Char → List Char → List (List Char)
  | [], acc => if acc.isEmpty then [] else [acc.reverse]
  | c :: cs, acc =>
    if pyIsSpace c then
      if acc.isEmpty then pySplitAux cs [] else acc.reverse :: pySplitAux cs []
    else pySplitAux cs (c :: acc)

/-- Model of Python `str.split()` with no separator argument: split on runs of
whitespace, discarding empty fields. -/
def pySplit (l : List Char) : List (List Char) :=
  pySplitAux l []

/-- Model of `' '.join(·)` on a list of words: interleave a single space
between consecutive words. -/
def joinSpace : List (List Char) → List Char
  | [] => []
  | [w] => w
  | w :: ws => w ++ ' ' :: joinSpace ws

/-- The whitespace-collapsing step of `normalize_str` (app.py line 37):
`' '.join(s.split())`. -/
def collapseStep (l : List Char) : List Char :=
  joinSpace (pySplit l)

/-- The string pipeline of `normalize_str` (app.py lines 29-38): conditional
accent removal, conditional lowercasing, conditional stripping, then
unconditional internal-whitespace collapsing. -/
def normalizeCore (l : List Char) (lower strip remove_accents : Bool) : List Char :=
  let s1 := if remove_accents then removeAccentsStep l else l
  let s2 := if lower then lowerStep s1 else s1
  let s3 := if strip then pyStrip s2 else s2
  collapseStep s3

/-- A scalar cell value of a table: a string, an integer, or the missing
marker (pandas NaN / Python None). -/
inductive Value where
  | na : Value
  | str : String → Value
  | int : Int → Value
deriving DecidableEq, Repr

/-- Model of `pd.isna` on a scalar. -/
def pd_isna : Value → Bool
  | Value.na => true
  | _ => false

/-- Model of Python `str(·)` on a scalar value as pandas `astype(str)`
applies it: a string is unchanged, an integer prints in decimal, and the
missing marker NaN prints as the literal string "nan". -/
def pyStr : Value → String
  | Value.na => "nan"
  | Value.str s => s
  | Value.int n => toString n

/-- Model of `normalize_str` (app.py lines 26-38): a missing value is
returned unchanged; otherwise the value is converted to a string and sent
through the accent-removal / lowercase / strip / collapse pipeline, each of
the first three steps guarded by its flag. -/
def normalize_str (v : Value) (lower strip remove_accents : Bool) : Value :=
  if pd_isna v then v
  else Value.str (String.mk (normalizeCore (pyStr v).data lower strip remove_accents))

/-- The call `normalize_str(x)` as the Key Builder makes it (app.py line 45),
with the source's default flag values `lower=True, strip=True,
remove_accents=True`. -/
def normalize_str_default (v : Value) : Value :=
  normalize_str v true true true

/-- A table: an ordered list of column names and a list of rows, each row's
values aligned positionally with the column names (the spec's data model for
a pandas DataFrame). -/
structure Table where
  cols : List String
  rows : List (List Value)
deriving DecidableEq, Repr

/-- Position of a column name in a header (first occurrence), `none` when the
name is absent — absence is what makes pandas column selection raise
`KeyError`. -/
def colIndex (header : List String) (c : String) : Option Nat :=
  header.findIdx? (fun x => x = c)

/-- Value of row `r` at column position `i` (missing positions read as the
missing marker; well-formed tables never hit the default). -/
def cellAt (r : List Value) (i : Nat) : Value :=
  r.getD i Value.na

/-- Model of the pandas column assignment `df[newcol] = vals`: if a column
with that name already exists it is overwritten in place, otherwise a new
column is appended on the right. -/
def addCol (t : Table) (name : String) (vals : List Value) : Table :=
  match colIndex t.cols name with
  | none => { cols := t.cols ++ [name], rows := (t.rows.zip vals).map (fun p => p.1 ++ [p.2]) }
  | some i => { cols := t.cols, rows := (t.rows.zip vals).map (fun p => p.1.set i p.2) }

/-- The synthetic key of one row (app.py line 45): select the key columns,
convert each value with `str(·)` (pandas `astype(str)`), join with a single
space (`agg(" ".join, axis=1)`), then normalize with default flags. -/
def keyOfRow (idxs : List Nat) (r : List Value) : Value :=
  normalize_str (Value.str (String.intercalate " " (idxs.map (fun i => pyStr (cellAt r i))))) true true true

/-- Positions of a list of column names in a header; `none` as soon as one
name is absent, as the pandas selection `df[cols]` raises `KeyError`. -/
def colIndices (header : List String) : List String → Option (List Nat)
  | [] => some []
  | c :: cs =>
    match colIndex header c, colIndices header cs with
    | some i, some is => some (i :: is)
    | _, _ => none

/-- Model of `normalize_df_key` (app.py lines 40-46): resolve the key column
positions (failing like `df[cols]`'s `KeyError` when a name is absent), name
the synthetic column by joining the key names with `"_&_"` and appending
`"__norm"`, compute the per-row normalized key, and assign it as a column. -/
def normalize_df_key (t : Table) (cols : List String) : Option (Table × String) :=
  match colIndices t.cols cols with
  | none => none
  | some idxs =>
    let newcol := String.intercalate "_&_" cols ++ "__norm"
    some (addCol t newcol (t.rows.map (keyOfRow idxs)), newcol)

/-- The fixed short-name alias priority list of `best_guess_keys`
(app.py line 50). -/
def candidates : List String :=
  ["Short Name", "ShortName", "Player Short Name", "Nome Curto", "Abbrev", "Abbreviated", "NameShort"]

/-- The fixed generic-name alias list of `best_guess_keys` (app.py line 52). -/
def generic : List String :=
  ["Player", "Jogador", "Name", "Nome"]

/-- Model of `best_guess_keys` (app.py lines 48-59): first alias of the fixed
priority list present in both headers; otherwise the intersection in
first-header order, truncated to at most one element. -/
def best_guess_keys (cols1 cols2 : List String) : List String :=
  match (candidates ++ generic).find? (fun c => cols1.contains c && cols2.contains c) with
  | some c => [c]
  | none =>
    let inter := cols1.filter (fun c => cols2.contains c)
    inter.take 1

/-- Restatement of the Key Guesser policy in the specification's own words
(spec section 4.3), for comparison with `best_guess_keys`: return the first
alias present in both lists, else the first column name common to both lists,
else the empty list. -/
def best_guess_keys_spec (cols1 cols2 : List String) : List String :=
  match (candidates ++ generic).find? (fun c => cols1.contains c && cols2.contains c) with
  | some c => [c]
  | none =>
    match cols1.find? (fun c => cols2.contains c) with
    | some c => [c]
    | none => []

/-- Model of the post-merge rename (app.py lines 130-131): if the merged
table has a column "Player_SC" and none named "Player", rename that column to
"Player"; otherwise leave the table unchanged. -/
def renamePlayerSC (t : Table) : Table :=
  if t.cols.contains "Player_SC" && !(t.cols.contains "Player") then
    { t with cols := t.cols.map (fun c => if c = "Player_SC" then "Player" else c) }
  else t

/-- A run of `n` null markers, used to fill the unmatched side of an outer
join. -/
def naRow (n : Nat) : List Value :=
  List.replicate n Value.na

/-- Modelled from the spec: the external relational-merge primitive invoked at
app.py line 127 (`pd.merge(df1n, df2n, how=merge_how, left_on=..., right_on=...,
suffixes=("_SC", "_SRC2"))`) is pandas library code, absent from this
repository; spec section 4.4 describes it.  This models the `how="outer"`
case with a single join key bearing the same name on both sides, which is the
configuration the normalized-key path produces: pandas drops the right
table's equally-named key column, suffixes the remaining overlapping column
names with "_SC" on the left and "_SRC2" on the right, emits each left row
next to every right row with an equal key (missing right side filled with the
null marker when unmatched), then appends the right rows with no left match,
their key value carried into the retained key column. -/
def mergeOuter (t1 t2 : Table) (k : String) : Table :=
  let i1 := (colIndex t1.cols k).getD 0
  let i2 := (colIndex t2.cols k).getD 0
  let rcols := t2.cols.eraseIdx i2
  let outCols :=
    t1.cols.map (fun c => if c ≠ k && rcols.contains c then c ++ "_SC" else c) ++
    rcols.map (fun c => if t1.cols.contains c then c ++ "_SRC2" else c)
  let matchesOf := fun (r1 : List Value) => t2.rows.filter (fun r2 => cellAt r2 i2 = cellAt r1 i1)
  let leftPart := t1.rows.flatMap (fun r1 =>
    match matchesOf r1 with
    | [] => [r1 ++ naRow rcols.length]
    | ms => ms.map (fun r2 => r1 ++ r2.eraseIdx i2))
  let rightOnly := (t2.rows.filter (fun r2 =>
      t1.rows.all (fun r1 => !(cellAt r2 i2 = cellAt r1 i1)))).map
    (fun r2 => (naRow t1.cols.length).set i1 (cellAt r2 i2) ++ r2.eraseIdx i2)
  { cols := outCols, rows := leftPart ++ rightOnly }

/-- A character left unchanged by every per-character operation of the
normalization pipeline: it NFD-decomposes to itself, is not a combining
mark, and is its own lowercase. -/
def isNormalChar (c : Char) : Prop :=
  nfdChar c = [c] ∧ isMn c = false ∧ pyLower c = c

/-- The normalized-key outer-merge path of the application (app.py lines
117-131 with `normalize` checked and `merge_how = "outer"`): build the
synthetic key on each table, outer-merge on the two key columns (modelled for
the case where the two synthetic names coincide), then apply the "Player_SC"
rename.  Returns `none` when key resolution fails or the synthetic key names
differ. -/
def mergePipeline (t1 t2 : Table) (c1 c2 : List String) : Option Table :=
  match normalize_df_key t1 c1, normalize_df_key t2 c2 with
  | some (d1, k1), some (d2, k2) =>
    if k1 = k2 then some (renamePlayerSC (mergeOuter d1 d2 k1)) else none
  | _, _ => none


/-! ### Character-level lemmas for the normalization pipeline -/

theorem char_toNat_ofNat {n : Nat} (h : n < 55296) : (Char.ofNat n).toNat = n := by
  have hv : n.isValidChar := Or.inl h
  simp [Char.ofNat, hv, Char.ofNatAux, Char.toNat, UInt32.toNat, BitVec.toNat_ofNatLt]

theorem char_toNat_inj {a b : Char} (h : a.toNat = b.toNat) : a = b := by
  apply Char.eq_of_val_eq
  apply UInt32.toNat.inj
  exact h

theorem isNormalChar_space : isNormalChar ' ' := by
  refine ⟨by decide, by decide, by decide⟩

theorem toLower_fixed_or_upper (c : Char) :
    c.toLower = c ∨ (97 ≤ c.toLower.toNat ∧ c.toLower.toNat ≤ 122) := by
  by_cases h : c.toNat ≥ 65 ∧ c.toNat ≤ 90
  · right
    have : c.toLower = Char.ofNat (c.toNat + 32) := by
      rw [Char.toLower, if_pos h]
    rw [this, char_toNat_ofNat (by omega)]
    omega
  · left
    rw [Char.toLower, if_neg h]

theorem isNormalChar_of_lower_ascii {c : Char} (h1 : 97 ≤ c.toNat) (h2 : c.toNat ≤ 122) :
    isNormalChar c := by
  have hE : c ≠ 'É' := fun he => absurd (he ▸ h2) (by decide)
  have he : c ≠ 'é' := fun he => absurd (he ▸ h2) (by decide)
  have hA : c ≠ combAcute := fun he => absurd (he ▸ h2) (by decide)
  refine ⟨by rw [nfdChar, if_neg hE, if_neg he], by simp [isMn, hA], ?_⟩
  rw [pyLower, if_neg hE, Char.toLower, if_neg (by omega)]

theorem isNormalChar_pyLower_nfd {c d : Char} (hd : d ∈ nfdChar c) (hMn : isMn d = false) :
    isNormalChar (pyLower d) := by
  by_cases hE : c = 'É'
  · subst hE
    have hcase : d = 'E' ∨ d = combAcute := by
      rw [nfdChar, if_pos rfl] at hd
      simpa using hd
    rcases hcase with rfl | rfl
    · exact ⟨by decide, by decide, by decide⟩
    · exact absurd hMn (by decide)
  · by_cases he : c = 'é'
    · subst he
      have hcase : d = 'e' ∨ d = combAcute := by
        rw [nfdChar, if_neg hE, if_pos rfl] at hd
        simpa using hd
      rcases hcase with rfl | rfl
      · exact ⟨by decide, by decide, by decide⟩
      · exact absurd hMn (by decide)
    · have hdc : d = c := by
        rw [nfdChar, if_neg hE, if_neg he] at hd
        simpa using hd
      subst hdc
      rw [pyLower, if_neg hE]
      rcases toLower_fixed_or_upper d with hfix | ⟨h1, h2⟩
      · rw [hfix]
        refine ⟨by rw [nfdChar, if_neg hE, if_neg he], hMn, ?_⟩
        rw [pyLower, if_neg hE, hfix]
      · exact isNormalChar_of_lower_ascii h1 h2

theorem mem_nfdList {d : Char} : ∀ {l : List Char}, d ∈ nfdList l → ∃ c ∈ l, d ∈ nfdChar c := by
  intro l
  induction l with
  | nil => intro h; rw [nfdList] at h; exact absurd h (List.not_mem_nil d)
  | cons a as ih =>
    intro h
    rw [nfdList] at h
    rcases List.mem_append.mp h with h1 | h2
    · exact ⟨a, List.mem_cons_self a as, h1⟩
    · obtain ⟨c, hc, hd⟩ := ih h2
      exact ⟨c, List.mem_cons_of_mem a hc, hd⟩

theorem mem_removeAccentsStep {d : Char} {l : List Char} (h : d ∈ removeAccentsStep l) :
    (∃ c ∈ l, d ∈ nfdChar c) ∧ isMn d = false := by
  rw [removeAccentsStep] at h
  have h1 := List.mem_filter.mp h
  exact ⟨mem_nfdList h1.1, by simpa using h1.2⟩

theorem isNormalChar_mem_lower_ra {d : Char} {l : List Char}
    (h : d ∈ lowerStep (removeAccentsStep l)) : isNormalChar d := by
  rw [lowerStep] at h
  obtain ⟨e, he, rfl⟩ := List.mem_map.mp h
  obtain ⟨⟨c, _, hc⟩, hMn⟩ := mem_removeAccentsStep he
  exact isNormalChar_pyLower_nfd hc hMn

theorem mem_pyStrip {c : Char} {l : List Char} (h : c ∈ pyStrip l) : c ∈ l := by
  rw [pyStrip, List.mem_reverse] at h
  have h2 := (List.dropWhile_sublist pyIsSpace).mem h
  rw [List.mem_reverse] at h2
  exact (List.dropWhile_sublist pyIsSpace).mem h2

theorem pySplitAux_props (l : List Char) : ∀ (acc : List Char), (∀ c ∈ acc, pyIsSpace c = false) →
    ∀ w ∈ pySplitAux l acc, w ≠ [] ∧ ∀ c ∈ w, pyIsSpace c = false ∧ (c ∈ l ∨ c ∈ acc) := by
  induction l with
  | nil =>
    intro acc hacc w hw
    rw [pySplitAux] at hw
    by_cases h : acc.isEmpty
    · rw [if_pos h] at hw
      exact absurd hw (List.not_mem_nil w)
    · rw [if_neg h] at hw
      rw [List.mem_singleton] at hw
      subst hw
      refine ⟨by simpa [List.isEmpty_iff] using h, fun c hc => ?_⟩
      rw [List.mem_reverse] at hc
      exact ⟨hacc c hc, Or.inr hc⟩
  | cons a as ih =>
    intro acc hacc w hw
    rw [pySplitAux] at hw
    by_cases hsp : pyIsSpace a = true
    · rw [if_pos hsp] at hw
      by_cases hac : acc.isEmpty
      · rw [if_pos hac] at hw
        obtain ⟨hne, hall⟩ := ih [] (by simp) w hw
        refine ⟨hne, fun c hc => ?_⟩
        obtain ⟨h1, h2⟩ := hall c hc
        rcases h2 with h2 | h2
        · exact ⟨h1, Or.inl (List.mem_cons_of_mem a h2)⟩
        · exact absurd h2 (List.not_mem_nil c)
      · rw [if_neg hac] at hw
        rcases List.mem_cons.mp hw with rfl | hw
        · refine ⟨by simpa [List.isEmpty_iff] using hac, fun c hc => ?_⟩
          rw [List.mem_reverse] at hc
          exact ⟨hacc c hc, Or.inr hc⟩
        · obtain ⟨hne, hall⟩ := ih [] (by simp) w hw
          refine ⟨hne, fun c hc => ?_⟩
          obtain ⟨h1, h2⟩ := hall c hc
          rcases h2 with h2 | h2
          · exact ⟨h1, Or.inl (List.mem_cons_of_mem a h2)⟩
          · exact absurd h2 (List.not_mem_nil c)
    · rw [if_neg hsp] at hw
      have hacc' : ∀ c ∈ a :: acc, pyIsSpace c = false := by
        intro c hc
        rcases List.mem_cons.mp hc with rfl | hc
        · exact Bool.eq_false_iff.mpr hsp
        · exact hacc c hc
      obtain ⟨hne, hall⟩ := ih (a :: acc) hacc' w hw
      refine ⟨hne, fun c hc => ?_⟩
      obtain ⟨h1, h2⟩ := hall c hc
      rcases h2 with h2 | h2
      · exact ⟨h1, Or.inl (List.mem_cons_of_mem a h2)⟩
      · rcases List.mem_cons.mp h2 with rfl | h2
        · exact ⟨h1, Or.inl (List.mem_cons_self c as)⟩
        · exact ⟨h1, Or.inr h2⟩

theorem pySplitAux_append_word (w : List Char) (hw : ∀ c ∈ w, pyIsSpace c = false) :
    ∀ (rest acc : List Char), pySplitAux (w ++ rest) acc = pySplitAux rest (w.reverse ++ acc) := by
  induction w with
  | nil => intro rest acc; simp
  | cons a w' ih =>
    intro rest acc
    have ha : pyIsSpace a = false := hw a (List.mem_cons_self a w')
    rw [List.cons_append, pySplitAux, if_neg (by simp [ha])]
    rw [ih (fun c hc => hw c (List.mem_cons_of_mem a hc)) rest (a :: acc)]
    congr 1
    simp

theorem joinSpace_cons_cons (w v : List Char) (ws : List (List Char)) :
    joinSpace (w :: v :: ws) = w ++ ' ' :: joinSpace (v :: ws) := rfl

theorem joinSpace_ne_nil {w : List Char} (hw : w ≠ []) (ws : List (List Char)) :
    joinSpace (w :: ws) ≠ [] := by
  cases ws with
  | nil => exact hw
  | cons v ws' =>
    rw [joinSpace_cons_cons]
    intro h
    rcases List.append_eq_nil.mp h with ⟨h1, h2⟩
    exact List.cons_ne_nil _ _ h2

theorem pySplit_joinSpace (ws : List (List Char))
    (h : ∀ w ∈ ws, w ≠ [] ∧ ∀ c ∈ w, pyIsSpace c = false) :
    pySplit (joinSpace ws) = ws := by
  induction ws with
  | nil => rfl
  | cons w ws' ih =>
    obtain ⟨hne, hns⟩ := h w (List.mem_cons_self w ws')
    cases ws' with
    | nil =>
      show pySplitAux (joinSpace [w]) [] = [w]
      have hj : joinSpace [w] = w ++ [] := by simp [joinSpace]
      rw [hj, pySplitAux_append_word w hns [] [], pySplitAux]
      rw [if_neg (by simp [List.isEmpty_iff, hne])]
      simp
    | cons v ws'' =>
      show pySplitAux (joinSpace (w :: v :: ws'')) [] = w :: v :: ws''
      rw [joinSpace_cons_cons, pySplitAux_append_word w hns (' ' :: joinSpace (v :: ws'')) []]
      rw [pySplitAux, if_pos (by decide)]
      rw [if_neg (by simp [List.isEmpty_iff, hne])]
      rw [List.append_nil, List.reverse_reverse]
      have := ih (fun u hu => h u (List.mem_cons_of_mem w hu))
      rw [pySplit] at this
      rw [this]

theorem dropWhile_eq_self_of_head {l : List Char} (p : Char → Bool)
    (h : ∀ c, l.head? = some c → p c = false) : l.dropWhile p = l := by
  cases l with
  | nil => rfl
  | cons a as =>
    rw [List.dropWhile_cons, h a rfl]
    simp

theorem pyStrip_eq_self {l : List Char}
    (h1 : ∀ c, l.head? = some c → pyIsSpace c = false)
    (h2 : ∀ c, l.getLast? = some c → pyIsSpace c = false) : pyStrip l = l := by
  rw [pyStrip, dropWhile_eq_self_of_head pyIsSpace h1]
  rw [dropWhile_eq_self_of_head pyIsSpace
    (fun c hc => h2 c (by rwa [List.getLast?_eq_head?_reverse]))]
  exact List.reverse_reverse l

theorem head?_joinSpace (w : List Char) (ws : List (List Char)) (hw : w ≠ []) :
    (joinSpace (w :: ws)).head? = w.head? := by
  cases ws with
  | nil => rfl
  | cons v ws' =>
    rw [joinSpace_cons_cons]
    cases w with
    | nil => exact absurd rfl hw
    | cons a as => rfl

theorem mem_of_getLast? {l : List Char} {c : Char} (h : l.getLast? = some c) : c ∈ l := by
  rw [List.getLast?_eq_head?_reverse] at h
  have : c ∈ l.reverse := by
    cases hr : l.reverse with
    | nil => rw [hr] at h; exact absurd h (by simp)
    | cons a as =>
      rw [hr] at h
      simp only [List.head?_cons, Option.some.injEq] at h
      rw [← h]
      exact List.mem_cons_self a as
  rwa [List.mem_reverse] at this

theorem getLast?_joinSpace_nonspace (ws : List (List Char))
    (h : ∀ w ∈ ws, w ≠ [] ∧ ∀ c ∈ w, pyIsSpace c = false) :
    ∀ c, (joinSpace ws).getLast? = some c → pyIsSpace c = false := by
  induction ws with
  | nil => intro c hc; exact absurd hc (by simp [joinSpace])
  | cons w ws' ih =>
    obtain ⟨hne, hns⟩ := h w (List.mem_cons_self w ws')
    cases ws' with
    | nil =>
      intro c hc
      exact hns c (mem_of_getLast? hc)
    | cons v ws'' =>
      intro c hc
      rw [joinSpace_cons_cons] at hc
      have hvne : joinSpace (v :: ws'') ≠ [] :=
        joinSpace_ne_nil (h v (by simp)).1 ws''
      rw [List.getLast?_append_of_ne_nil w (List.cons_ne_nil ' ' _)] at hc
      have hc2 : (joinSpace (v :: ws'')).getLast? = some c := by
        have : (' ' :: joinSpace (v :: ws'')) = [' '] ++ joinSpace (v :: ws'') := rfl
        rw [this, List.getLast?_append_of_ne_nil [' '] hvne] at hc
        exact hc
      exact ih (fun u hu => h u (List.mem_cons_of_mem w hu)) c hc2

theorem mem_joinSpace {c : Char} : ∀ {ws : List (List Char)},
    c ∈ joinSpace ws → c = ' ' ∨ ∃ w ∈ ws, c ∈ w := by
  intro ws
  induction ws with
  | nil => intro h; exact absurd h (by simp [joinSpace])
  | cons w ws' ih =>
    cases ws' with
    | nil =>
      intro h
      exact Or.inr ⟨w, List.mem_cons_self w [], h⟩
    | cons v ws'' =>
      intro h
      rw [joinSpace_cons_cons] at h
      rcases List.mem_append.mp h with h | h
      · exact Or.inr ⟨w, List.mem_cons_self w _, h⟩
      · rcases List.mem_cons.mp h with rfl | h
        · exact Or.inl rfl
        · rcases ih h with h | ⟨u, hu, hcu⟩
          · exact Or.inl h
          · exact Or.inr ⟨u, List.mem_cons_of_mem w hu, hcu⟩

theorem nfdList_eq_self {l : List Char} (h : ∀ c ∈ l, nfdChar c = [c]) : nfdList l = l := by
  induction l with
  | nil => rfl
  | cons a as ih =>
    rw [nfdList, h a (List.mem_cons_self a as),
      ih (fun c hc => h c (List.mem_cons_of_mem a hc))]
    rfl

theorem removeAccentsStep_eq_self {l : List Char}
    (h : ∀ c ∈ l, nfdChar c = [c] ∧ isMn c = false) : removeAccentsStep l = l := by
  rw [removeAccentsStep, nfdList_eq_self (fun c hc => (h c hc).1)]
  apply List.filter_eq_self.mpr
  intro c hc
  simp [(h c hc).2]

theorem lowerStep_eq_self {l : List Char} (h : ∀ c ∈ l, pyLower c = c) : lowerStep l = l := by
  rw [lowerStep]
  induction l with
  | nil => rfl
  | cons a as ih =>
    rw [List.map_cons, h a (List.mem_cons_self a as),
      ih (fun c hc => h c (List.mem_cons_of_mem a hc))]

theorem normalizeCore_idem (l : List Char) :
    normalizeCore (normalizeCore l true true true) true true true = normalizeCore l true true true := by
  have hwords := pySplitAux_props (pyStrip (lowerStep (removeAccentsStep l))) [] (by simp)
  have hwords' : ∀ w ∈ pySplit (pyStrip (lowerStep (removeAccentsStep l))),
      w ≠ [] ∧ ∀ c ∈ w, pyIsSpace c = false := fun w hw =>
    ⟨(hwords w hw).1, fun c hc => ((hwords w hw).2 c hc).1⟩
  have hchars : ∀ c ∈ joinSpace (pySplit (pyStrip (lowerStep (removeAccentsStep l)))),
      isNormalChar c := by
    intro c hc
    rcases mem_joinSpace hc with rfl | ⟨w, hw, hcw⟩
    · exact isNormalChar_space
    · rcases ((hwords w hw).2 c hcw).2 with h | h
      · exact isNormalChar_mem_lower_ra (mem_pyStrip h)
      · exact absurd h (List.not_mem_nil c)
  show normalizeCore (joinSpace (pySplit (pyStrip (lowerStep (removeAccentsStep l))))) true true true
      = joinSpace (pySplit (pyStrip (lowerStep (removeAccentsStep l))))
  show collapseStep (pyStrip (lowerStep (removeAccentsStep
      (joinSpace (pySplit (pyStrip (lowerStep (removeAccentsStep l))))))))
      = joinSpace (pySplit (pyStrip (lowerStep (removeAccentsStep l))))
  rw [removeAccentsStep_eq_self (fun c hc => ⟨(hchars c hc).1, (hchars c hc).2.1⟩)]
  rw [lowerStep_eq_self (fun c hc => (hchars c hc).2.2)]
  rw [pyStrip_eq_self ?h1 ?h2]
  case h1 =>
    intro c hc
    cases hws : pySplit (pyStrip (lowerStep (removeAccentsStep l))) with
    | nil => rw [hws] at hc; exact absurd hc (by simp [joinSpace])
    | cons w ws' =>
      rw [hws] at hc
      rw [head?_joinSpace w ws' (hwords' w (by rw [hws]; exact List.mem_cons_self w ws')).1] at hc
      exact (hwords' w (by rw [hws]; exact List.mem_cons_self w ws')).2 c (by
        cases w with
        | nil => exact absurd hc (by simp)
        | cons a as =>
          simp only [List.head?_cons, Option.some.injEq] at hc
          rw [← hc]
          exact List.mem_cons_self a as)
  case h2 =>
    exact getLast?_joinSpace_nonspace _ hwords'
  rw [collapseStep, pySplit_joinSpace _ hwords']

/-! ### Lemmas about column resolution and assignment -/

theorem colIndex_eq_none {header : List String} {c : String} (h : c ∉ header) :
    colIndex header c = none := by
  rw [colIndex, List.findIdx?_eq_none_iff]
  intro x hx
  simp only [decide_eq_false_iff_not]
  intro hxc
  exact h (hxc ▸ hx)

theorem colIndex_exists_of_mem {header : List String} {c : String} (h : c ∈ header) :
    ∃ i, colIndex header c = some i := by
  cases hidx : colIndex header c with
  | some i => exact ⟨i, rfl⟩
  | none =>
    rw [colIndex, List.findIdx?_eq_none_iff] at hidx
    simpa using hidx c h

theorem colIndices_eq_none {header : List String} {cols : List String} {c : String}
    (hc : c ∈ cols) (habs : c ∉ header) : colIndices header cols = none := by
  induction cols with
  | nil => exact absurd hc (List.not_mem_nil c)
  | cons d ds ih =>
    rcases List.mem_cons.mp hc with rfl | hc
    · rw [colIndices, colIndex_eq_none habs]
    · rw [colIndices, ih hc]
      cases colIndex header d <;> rfl

theorem colIndices_exists_of_mem {header : List String} {cols : List String}
    (h : ∀ c ∈ cols, c ∈ header) : ∃ idxs, colIndices header cols = some idxs := by
  induction cols with
  | nil => exact ⟨[], rfl⟩
  | cons d ds ih =>
    obtain ⟨i, hi⟩ := colIndex_exists_of_mem (h d (List.mem_cons_self d ds))
    obtain ⟨is, his⟩ := ih (fun c hc => h c (List.mem_cons_of_mem d hc))
    exact ⟨i :: is, by rw [colIndices, hi, his]⟩

theorem zip_map_append (rows : List (List Value)) (f : List Value → Value) :
    ((rows.zip (rows.map f)).map (fun p => p.1 ++ [p.2])) = rows.map (fun r => r ++ [f r]) := by
  induction rows with
  | nil => rfl
  | cons r rs ih =>
    rw [List.map_cons, List.zip_cons_cons, List.map_cons, ih]
    rfl

theorem filter_take_one (p : String → Bool) (l : List String) :
    (l.filter p).take 1 = match l.find? p with | some c => [c] | none => [] := by
  induction l with
  | nil => rfl
  | cons a as ih =>
    by_cases h : p a = true
    · rw [List.filter_cons_of_pos h, List.find?_cons_of_pos _ h]
      rfl
    · rw [List.filter_cons_of_neg (by simpa using h), List.find?_cons_of_neg _ h, ih]

theorem best_guess_keys_eq_spec (cols1 cols2 : List String) :
    best_guess_keys cols1 cols2 = best_guess_keys_spec cols1 cols2 := by
  cases hf : (candidates ++ generic).find? (fun c => cols1.contains c && cols2.contains c) with
  | some c => rw [best_guess_keys, best_guess_keys_spec, hf]
  | none =>
    rw [best_guess_keys, best_guess_keys_spec, hf]
    exact filter_take_one _ _

theorem best_guess_keys_spec_length (cols1 cols2 : List String) :
    (best_guess_keys_spec cols1 cols2).length ≤ 1 := by
  rw [best_guess_keys_spec]
  cases (candidates ++ generic).find? (fun c => cols1.contains c && cols2.contains c) with
  | some c => exact le_refl 1
  | none =>
    cases cols1.find? (fun c => cols2.contains c) with
    | some c => exact le_refl 1
    | none => exact Nat.zero_le 1

/-! ### The claims -/

set_option maxRecDepth 10000

/-- C1: End-to-end merge example: for table1 with columns [Short Name, Goals]
and rows [("A",1),("B",2)] and table2 with columns [Short Name, Assists] and
rows [("A",5),("C",9)], an outer join on Short Name with key normalization
enabled yields exactly 3 rows: A with (1,5), B with (2, null), and C with
(null, 9). -/
theorem claim_C1_end_to_end_outer_merge :
    mergePipeline
      ⟨["Short Name", "Goals"], [[Value.str "A", Value.int 1], [Value.str "B", Value.int 2]]⟩
      ⟨["Short Name", "Assists"], [[Value.str "A", Value.int 5], [Value.str "C", Value.int 9]]⟩
      ["Short Name"] ["Short Name"] =
    some ⟨["Short Name_SC", "Goals", "Short Name__norm", "Short Name_SRC2", "Assists"],
      [[Value.str "A", Value.int 1, Value.str "a", Value.str "A", Value.int 5],
       [Value.str "B", Value.int 2, Value.str "b", Value.na, Value.na],
       [Value.na, Value.na, Value.str "c", Value.str "C", Value.int 9]]⟩ := by
  decide

/-- C2, counterexample: the Key Builder postcondition fails as stated.  On a
table whose columns are ["A", "A__norm"] the synthetic key name for
cols = ["A"] is "A__norm", which already exists, so the pandas assignment
overwrites that column in place: the output has the same two columns (none
appended) and the original "A__norm" column's value "Y" has been replaced by
"x". -/
theorem claim_C2_counterexample :
    normalize_df_key ⟨["A", "A__norm"], [[Value.str "X", Value.str "Y"]]⟩ ["A"] =
      some (⟨["A", "A__norm"], [[Value.str "X", Value.str "x"]]⟩, "A__norm") ∧
    (⟨["A", "A__norm"], [[Value.str "X", Value.str "x"]]⟩ : Table).cols.length = 2 := by
  exact ⟨by decide, rfl⟩

/-- C2, amended: for every table and every non-empty list of column names all
present in the table, provided the synthetic key name (the input column names
joined with "_&_" plus the suffix "__norm") is not already a column of the
table, the output is the table with exactly this one additional column
appended; its per-row value is the space-joined string conversion of that
row's values in the named columns passed through the Normalizer; all original
columns are untouched. -/
theorem claim_C2_key_builder_postcondition (t : Table) (cols : List String)
    (hne : cols ≠ []) (hmem : ∀ c ∈ cols, c ∈ t.cols)
    (hnew : String.intercalate "_&_" cols ++ "__norm" ∉ t.cols) :
    ∃ idxs, colIndices t.cols cols = some idxs ∧
      normalize_df_key t cols =
        some ({ cols := t.cols ++ [String.intercalate "_&_" cols ++ "__norm"],
                rows := t.rows.map (fun r => r ++ [keyOfRow idxs r]) },
              String.intercalate "_&_" cols ++ "__norm") := by
  obtain ⟨idxs, hidxs⟩ := colIndices_exists_of_mem hmem
  refine ⟨idxs, hidxs, ?_⟩
  rw [normalize_df_key, hidxs]
  show some (addCol t _ (t.rows.map (keyOfRow idxs)), _) = _
  rw [addCol, colIndex_eq_none hnew]
  rw [zip_map_append]

/-- Witness for C2's amended theorem at the specification's example: columns
["A","B"] on the one-row table with values ("X","Y"). -/
theorem claim_C2_key_builder_postcondition_witness :
    ∃ idxs, colIndices ["A", "B"] ["A", "B"] = some idxs ∧
      normalize_df_key ⟨["A", "B"], [[Value.str "X", Value.str "Y"]]⟩ ["A", "B"] =
        some ({ cols := ["A", "B"] ++ [String.intercalate "_&_" ["A", "B"] ++ "__norm"],
                rows := [[Value.str "X", Value.str "Y"]].map (fun r => r ++ [keyOfRow idxs r]) },
              String.intercalate "_&_" ["A", "B"] ++ "__norm") :=
  claim_C2_key_builder_postcondition ⟨["A", "B"], [[Value.str "X", Value.str "Y"]]⟩ ["A", "B"]
    (by decide) (by decide) (by decide)

/-- C3: each of the three steps (lowercasing, stripping, accent removal) is
independently toggleable by its flag, all defaulting to enabled; disabling
exactly one flag skips exactly that step of the pipeline while the other
steps, including the unconditional internal-whitespace collapsing, still
apply. -/
theorem claim_C3_normalizer_flags :
    (∀ v : Value, normalize_str_default v = normalize_str v true true true) ∧
    (∀ s : String,
      normalize_str (Value.str s) true true true
        = Value.str (String.mk (collapseStep (pyStrip (lowerStep (removeAccentsStep s.data))))) ∧
      normalize_str (Value.str s) false true true
        = Value.str (String.mk (collapseStep (pyStrip (removeAccentsStep s.data)))) ∧
      normalize_str (Value.str s) true false true
        = Value.str (String.mk (collapseStep (lowerStep (removeAccentsStep s.data)))) ∧
      normalize_str (Value.str s) true true false
        = Value.str (String.mk (collapseStep (pyStrip (lowerStep s.data))))) :=
  ⟨fun _ => rfl, fun _ => ⟨rfl, rfl, rfl, rfl⟩⟩

/-- C4: for every missing input and any flag settings, the Normalizer returns
the missing marker unchanged. -/
theorem claim_C4_missing_value (lower strip remove_accents : Bool) :
    normalize_str Value.na lower strip remove_accents = Value.na := rfl

/-- C5: with default flag settings the Normalizer is idempotent:
normalize(normalize(x)) = normalize(x) for every input. -/
theorem claim_C5_idempotent (v : Value) :
    normalize_str_default (normalize_str_default v) = normalize_str_default v := by
  cases v with
  | na => rfl
  | str s =>
    show Value.str (String.mk (normalizeCore (normalizeCore s.data true true true) true true true))
        = Value.str (String.mk (normalizeCore s.data true true true))
    rw [normalizeCore_idem]
  | int n =>
    show Value.str (String.mk
        (normalizeCore (normalizeCore (toString n).data true true true) true true true))
        = Value.str (String.mk (normalizeCore (toString n).data true true true))
    rw [normalizeCore_idem]

/-- C6: with default flags, normalize("É  Test ") returns "e test": accent
removed, case folded, whitespace collapsed and trimmed. -/
theorem claim_C6_example :
    normalize_str_default (Value.str "É  Test ") = Value.str "e test" := by decide

/-- C7: the Key Guesser returns a list of at most one name, equal to the
specification's policy: the first alias of the fixed priority list (short-name
aliases then generic name aliases) present in both column-name lists, else the
first column name common to both lists, else the empty list; and the two
specification examples hold. -/
theorem claim_C7_key_guesser :
    (∀ cols1 cols2 : List String,
      best_guess_keys cols1 cols2 = best_guess_keys_spec cols1 cols2 ∧
      (best_guess_keys cols1 cols2).length ≤ 1) ∧
    best_guess_keys ["Short Name", "Age"] ["Short Name", "Club"] = ["Short Name"] ∧
    best_guess_keys ["Foo"] ["Bar"] = [] :=
  ⟨fun cols1 cols2 =>
    ⟨best_guess_keys_eq_spec cols1 cols2,
     (best_guess_keys_eq_spec cols1 cols2) ▸ best_guess_keys_spec_length cols1 cols2⟩,
   by decide, by decide⟩

/-- C8: the merged result is renamed exactly when it has a column "Player_SC"
and none named "Player", in which case that column becomes "Player"; in every
other case all column names are left unchanged. -/
theorem claim_C8_rename (t : Table) :
    (("Player_SC" ∈ t.cols ∧ "Player" ∉ t.cols) →
      renamePlayerSC t =
        { t with cols := t.cols.map (fun c => if c = "Player_SC" then "Player" else c) }) ∧
    (¬("Player_SC" ∈ t.cols ∧ "Player" ∉ t.cols) → renamePlayerSC t = t) := by
  constructor
  · rintro ⟨h1, h2⟩
    rw [renamePlayerSC, if_pos]
    rw [Bool.and_eq_true]
    refine ⟨List.elem_iff.mpr h1, ?_⟩
    simp only [Bool.not_eq_true']
    rw [← Bool.not_eq_true]
    intro hcon
    exact h2 (List.elem_iff.mp hcon)
  · intro h
    rw [renamePlayerSC, if_neg]
    intro hcond
    rw [Bool.and_eq_true] at hcond
    refine h ⟨List.elem_iff.mp hcond.1, ?_⟩
    intro hmem
    have hcf := hcond.2
    simp only [Bool.not_eq_true'] at hcf
    have hel : t.cols.contains "Player" = true := List.elem_iff.mpr hmem
    rw [hcf] at hel
    exact Bool.false_ne_true hel

/-- Witness for C8 at concrete tables exercising both branches: a table with
only "Player_SC" is renamed, a table with both "Player_SC" and "Player" is
unchanged. -/
theorem claim_C8_rename_witness :
    renamePlayerSC ⟨["Player_SC"], []⟩ =
      { cols := ["Player_SC"].map (fun c => if c = "Player_SC" then "Player" else c),
        rows := ([] : List (List Value)) } ∧
    renamePlayerSC ⟨["Player_SC", "Player"], []⟩ = ⟨["Player_SC", "Player"], []⟩ :=
  ⟨(claim_C8_rename ⟨["Player_SC"], []⟩).1 (by decide),
   (claim_C8_rename ⟨["Player_SC", "Player"], []⟩).2 (by decide)⟩

/-- C9: for every table and list of column names, if any named column is
absent from the table, building the synthetic key fails (no key column is
silently produced). -/
theorem claim_C9_missing_column (t : Table) (cols : List String) (c : String)
    (hc : c ∈ cols) (habs : c ∉ t.cols) :
    normalize_df_key t cols = none := by
  rw [normalize_df_key, colIndices_eq_none hc habs]

/-- Witness for C9: requesting the absent column "B" on a table whose only
column is "A" fails. -/
theorem claim_C9_missing_column_witness :
    normalize_df_key ⟨["A"], []⟩ ["B"] = none :=
  claim_C9_missing_column ⟨["A"], []⟩ ["B"] "B" (by decide) (by decide)

/-- C10: the Key Builder string-converts missing values to the literal "nan"
before normalization, so the synthetic key column always holds strings (never
the missing marker), and two rows whose selected key values are all missing
receive equal synthetic keys. -/
theorem claim_C10_missing_keys :
    pyStr Value.na = "nan" ∧
    (∀ (idxs : List Nat) (r : List Value), ∃ s, keyOfRow idxs r = Value.str s) ∧
    (∀ (idxs : List Nat) (r1 r2 : List Value),
      (∀ i ∈ idxs, cellAt r1 i = Value.na) → (∀ i ∈ idxs, cellAt r2 i = Value.na) →
      keyOfRow idxs r1 = keyOfRow idxs r2) := by
  refine ⟨rfl, fun idxs r => ⟨_, rfl⟩, fun idxs r1 r2 h1 h2 => ?_⟩
  rw [keyOfRow, keyOfRow]
  have hmap : idxs.map (fun i => pyStr (cellAt r1 i)) = idxs.map (fun i => pyStr (cellAt r2 i)) := by
    induction idxs with
    | nil => rfl
    | cons i is ih =>
      rw [List.map_cons, List.map_cons, h1 i (List.mem_cons_self i is),
        h2 i (List.mem_cons_self i is),
        ih (fun j hj => h1 j (List.mem_cons_of_mem i hj))
           (fun j hj => h2 j (List.mem_cons_of_mem i hj))]
  rw [hmap]

/-- Witness for C10: a row whose only key cell is missing and a longer row
whose selected cell is also missing receive the same synthetic key. -/
theorem claim_C10_missing_keys_witness :
    keyOfRow [0] [Value.na] = keyOfRow [0] [Value.na, Value.int 7] :=
  claim_C10_missing_keys.2.2 [0] [Value.na] [Value.na, Value.int 7] (by decide) (by decide)
